import Mathlib

/-!
Shallow embedding of the write-ahead-log layer of yaraft-wal
(src/src/wal/log_manager.cc) together with theorems that check the
natural-language specification of the repository against the code.

Machine integers are modelled as Nat; the one place where uint64 overflow
matters (the first-batch adjustment in LogManager::Write) uses an explicit
modulus.  Fallible operations return an explicit outcome value.  Collaborator
code that is not part of the repository sources under src/ (the LogWriter, the
readable log segment decoder, the SegmentFileName formatter) is either taken
as a parameter or modelled from the specification; each such definition says
so in its documentation.
-/

namespace Wal

/-- Error kinds of the status taxonomy (spec section 7).  The source uses the
status code YARaftError for what the specification calls TermRegressionError
(log_manager.cc line 40). -/
inductive ErrorKind
  | IOError
  | CorruptSegment
  | YARaftError
  | InvariantViolation
deriving DecidableEq

/-- Return status of a fallible call: Status::OK() or an error. -/
inductive Status
  | OK
  | Err (k : ErrorKind)
deriving DecidableEq

/-- One log entry: yaraft::pb::Entry with fields index, term and payload. -/
structure Entry where
  index : Nat
  term : Nat
  payload : List Nat
deriving DecidableEq

/-- SegmentMetaData: segment id and start index of one on-disk segment. -/
structure SegmentMetaData where
  segmentId : Nat
  startIndex : Nat
deriving DecidableEq

/-- HardState: durable term, vote and commit record. -/
structure HardState where
  term : Nat
  vote : Nat
  commit : Nat
deriving DecidableEq

/-- AppendToMemStore (log_manager.cc lines 34-61).  If the cache is non-empty
and the incoming term is below the term of the last cached entry, the call
fails and the cache is untouched (the source returns before any mutation).
Otherwise the backward scan at lines 45-56 pops exactly the longest suffix of
cached entries whose index is at least e.index, modelled as dropWhile on the
reversed cache, and then the entry is appended (yaraft MemoryStorage::Append
is external to the repository; per spec section 4.4 it appends the entry at
the end of the cache). -/
def AppendToMemStore (e : Entry) (vec : List Entry) : Status × List Entry :=
  match vec.getLast? with
  | none => (Status.OK, vec ++ [e])
  | some last =>
    if e.term < last.term then
      (Status.Err ErrorKind.YARaftError, vec)
    else
      (Status.OK, (vec.reverse.dropWhile (fun x => e.index ≤ x.index)).reverse ++ [e])

/-- Claim C4: AppendToMemStore fails with the term-regression error exactly
when the cache is non-empty and the incoming term is strictly below the term
of the last cached entry, and on that failure the cache is left unchanged. -/
theorem appendToMemStore_term_regression (e : Entry) (vec : List Entry) :
    ((AppendToMemStore e vec).1 = Status.Err ErrorKind.YARaftError ↔
      ∃ last, vec.getLast? = some last ∧ e.term < last.term) ∧
    ((AppendToMemStore e vec).1 ≠ Status.OK → (AppendToMemStore e vec).2 = vec) := by
  unfold AppendToMemStore
  cases h : vec.getLast? with
  | none => simp
  | some last =>
    by_cases ht : e.term < last.term <;> simp [ht]

/-- Witness for C4 at a concrete input: a lower-term entry is rejected and
the cache is returned unchanged. -/
theorem appendToMemStore_term_regression_check :
    (AppendToMemStore ⟨2, 1, []⟩ [⟨1, 5, []⟩]).1 = Status.Err ErrorKind.YARaftError ∧
    (AppendToMemStore ⟨2, 1, []⟩ [⟨1, 5, []⟩]).2 = [⟨1, 5, []⟩] :=
  ⟨(appendToMemStore_term_regression ⟨2, 1, []⟩ [⟨1, 5, []⟩]).1.mpr
      ⟨⟨1, 5, []⟩, by decide, by decide⟩,
   (appendToMemStore_term_regression ⟨2, 1, []⟩ [⟨1, 5, []⟩]).2 (by decide)⟩

/-- Dropping a while-suffix across an appended singleton when the whole front
is dropped: only the appended element remains to be examined. -/
theorem dropWhile_append_single_nil {α : Type} (p : α → Bool) (l : List α) (a : α)
    (h : l.dropWhile p = []) : (l ++ [a]).dropWhile p = [a].dropWhile p := by
  induction l with
  | nil => simp
  | cons b tl ih =>
    by_cases hb : p b
    · rw [List.dropWhile_cons, if_pos hb] at h
      simpa [List.dropWhile_cons, hb] using ih h
    · rw [List.dropWhile_cons, if_neg hb] at h
      exact absurd h (by simp)

/-- Dropping a while-suffix across an appended singleton when part of the
front survives: the appended element is kept behind the surviving part. -/
theorem dropWhile_append_single_cons {α : Type} (p : α → Bool) (l : List α) (a : α)
    (h : l.dropWhile p ≠ []) : (l ++ [a]).dropWhile p = l.dropWhile p ++ [a] := by
  induction l with
  | nil => exact absurd rfl h
  | cons b tl ih =>
    by_cases hb : p b
    · rw [List.dropWhile_cons, if_pos hb] at h
      simpa [List.dropWhile_cons, hb] using ih h
    · simp [List.dropWhile_cons, hb]

/-- On a cache whose indices are strictly increasing, the backward
conflict-scan of AppendToMemStore removes exactly the entries whose index is
at least e.index. -/
theorem trunc_eq_filter (e : Entry) (vec : List Entry)
    (hsorted : vec.Pairwise (fun a b => a.index < b.index)) :
    (vec.reverse.dropWhile (fun x => e.index ≤ x.index)).reverse =
      vec.filter (fun x => x.index < e.index) := by
  induction vec with
  | nil => rfl
  | cons a tl ih =>
    have hsa : ∀ b ∈ tl, a.index < b.index := (List.pairwise_cons.mp hsorted).1
    have hstl := (List.pairwise_cons.mp hsorted).2
    by_cases hpa : e.index ≤ a.index
    · have hall : ∀ x ∈ (a :: tl).reverse, (fun x => decide (e.index ≤ x.index)) x = true := by
        intro x hx
        rcases (by simpa using hx : x ∈ tl ∨ x = a) with hx2 | rfl
        · exact decide_eq_true (le_trans hpa (le_of_lt (hsa x hx2)))
        · simpa using hpa
      rw [List.dropWhile_eq_nil_iff.mpr hall]
      have hnone : ∀ x ∈ a :: tl, ¬ x.index < e.index := by
        intro x hx
        rcases (by simpa using hx : x = a ∨ x ∈ tl) with rfl | hx2
        · omega
        · have := hsa x hx2; omega
      simp only [List.reverse_nil]
      rw [List.filter_eq_nil_iff.mpr (by intro x hx; simpa using hnone x hx)]
    · have hqa : a.index < e.index := by omega
      rw [show (a :: tl).reverse = tl.reverse ++ [a] by simp]
      by_cases hnil : tl.reverse.dropWhile (fun x => decide (e.index ≤ x.index)) = []
      · rw [dropWhile_append_single_nil _ _ _ hnil]
        have htl : ∀ x ∈ tl, ¬ x.index < e.index := by
          intro x hx
          have hpx := List.dropWhile_eq_nil_iff.mp hnil x (by simpa using hx)
          have : e.index ≤ x.index := of_decide_eq_true hpx
          omega
        have hfil : tl.filter (fun x => x.index < e.index) = [] :=
          List.filter_eq_nil_iff.mpr (by intro x hx; simpa using htl x hx)
        simp [List.dropWhile_cons, List.filter_cons, hqa, hpa, hfil]
      · rw [dropWhile_append_single_cons _ _ _ hnil]
        simp only [List.reverse_append, List.reverse_cons, List.reverse_nil, List.nil_append,
          List.singleton_append]
        rw [ih hstl]
        simp [List.filter_cons, hqa]

/-- Claim C5: on a non-empty index-sorted cache, appending an entry whose term
does not regress truncates exactly the cached entries whose index is at least
the incoming index and then appends the entry. -/
theorem appendToMemStore_conflict_truncate (e last : Entry) (vec : List Entry)
    (hsorted : vec.Pairwise (fun a b => a.index < b.index))
    (hlast : vec.getLast? = some last) (hterm : last.term ≤ e.term) :
    AppendToMemStore e vec =
      (Status.OK, vec.filter (fun x => x.index < e.index) ++ [e]) := by
  have hterm2 : ¬ e.term < last.term := not_lt.mpr hterm
  simp only [AppendToMemStore, hlast, hterm2, if_false]
  rw [trunc_eq_filter e vec hsorted]

/-- Witness for C5: the spec example, cache [(1,t1),(2,t1),(3,t1)] with t1 = 5
and incoming entry (2,t2) with t2 = 7, yields [(1,t1),(2,t2)]. -/
theorem appendToMemStore_conflict_truncate_check :
    AppendToMemStore ⟨2, 7, []⟩ [⟨1, 5, []⟩, ⟨2, 5, []⟩, ⟨3, 5, []⟩] =
      (Status.OK, [⟨1, 5, []⟩, ⟨2, 7, []⟩]) := by
  have h := appendToMemStore_conflict_truncate ⟨2, 7, []⟩ ⟨3, 5, []⟩
    [⟨1, 5, []⟩, ⟨2, 5, []⟩, ⟨3, 5, []⟩] (by decide) (by decide) (by decide)
  exact h.trans (by decide)

/-- Outcome of an operation: a returned OK value, a returned error status, or
termination of the process by a FATAL or assertion macro (spec section 7
distinguishes returned results from fatal InvariantViolation conditions). -/
inductive Outcome (α : Type)
  | ok (a : α)
  | err (k : ErrorKind)
  | fatal (k : ErrorKind)
deriving DecidableEq

/-- A live LogWriter.  log_writer.cc is not under src/; the writer is modelled
by the SegmentMetaData minted when it is created (spec section 4.2) together
with the environment-determined outcome of its eventual Finish call: none
means Finish succeeds and returns the metadata, some k means Finish fails
with error k. -/
structure Writer where
  meta : SegmentMetaData
  finishErr : Option ErrorKind
deriving DecidableEq

/-- LogManager state (log_manager.h fields as used by log_manager.cc):
files_, current_, lastIndex_, empty_.  The constructor at lines 66-67
initializes lastIndex_(0) and empty_(false). -/
structure LogManagerState where
  files : List SegmentMetaData
  current : Option Writer
  lastIndex : Nat
  empty : Bool
deriving DecidableEq

/-- Modelled from the spec: LogWriter::New (log_writer.cc is not under src/)
names a fresh segment with a segment id one greater than the highest seen so
far and a start index of lastIndex + 1 (spec section 4.2). -/
def newWriter (st : LogManagerState) : Writer :=
  ⟨⟨(st.files.map (fun m => m.segmentId)).foldl max 0 + 1, st.lastIndex + 1⟩, none⟩

/-- finishCurrentWriter (lines 179-184): a failure of LogWriter::Finish hits
FATAL_NOT_OK and terminates the process; on success the metadata of the
finished segment is appended to files_ and the writer is destroyed. -/
def finishCurrentWriter (st : LogManagerState) (w : Writer) : Outcome LogManagerState :=
  match w.finishErr with
  | some k => Outcome.fatal k
  | none => Outcome.ok { st with files := st.files ++ [w.meta], current := none }

/-- One Append call of the segment-write loop: the chunk of entries the
writer consumed and the hard-state pointer passed to the call. -/
abbrev Chunk := List Entry × Option HardState

/-- Prepend a chunk to the trace of a loop continuation. -/
def consTrace (c : Chunk) :
    Outcome (LogManagerState × List Chunk) → Outcome (LogManagerState × List Chunk)
  | Outcome.ok (st, tr) => Outcome.ok (st, c :: tr)
  | Outcome.err k => Outcome.err k
  | Outcome.fatal k => Outcome.fatal k

/-- doWrite (lines 130-159).  LogWriter::Append is not under src/, so the
number of entries the writer consumes from the remaining batch is a parameter
appendFn (spec section 4.2 obliges it to consume at least one entry; consuming
zero is the fatal InvariantViolation of spec section 7, and an exhausted fuel
counter, which the theorems rule out, is reported the same way).  Mirrors the
source loop: ensure a writer is open, ask it to append; if everything was
consumed the loop ends with the writer still open and lastIndex_ untouched,
exactly as in the source; otherwise the hard state is cleared for the rest of
the batch, lastIndex_ becomes the index of the last consumed entry, the
writer is finished, and the loop continues from the first unconsumed entry.
Returns the final state and the trace of Append calls. -/
def doWriteGo (appendFn : List Entry → Nat) :
    Nat → LogManagerState → List Entry → Option HardState →
      Outcome (LogManagerState × List Chunk)
  | 0, _, _, _ => Outcome.fatal ErrorKind.InvariantViolation
  | fuel + 1, st, entries, hs =>
    let w := match st.current with
      | some w0 => w0
      | none => newWriter st
    let st1 : LogManagerState := { st with current := some w }
    let n := appendFn entries
    if entries.length ≤ n then
      Outcome.ok (st1, [(entries, hs)])
    else
      match (entries.take n).getLast? with
      | none => Outcome.fatal ErrorKind.InvariantViolation
      | some lastE =>
        match finishCurrentWriter { st1 with lastIndex := lastE.index } w with
        | Outcome.fatal k => Outcome.fatal k
        | Outcome.err k => Outcome.err k
        | Outcome.ok st2 =>
          consTrace (entries.take n, hs) (doWriteGo appendFn fuel st2 (entries.drop n) none)

/-- First-batch adjustment of Write (lines 120-124): on a non-empty batch,
while the manager is flagged empty, lastIndex_ becomes entries[0].index - 1 in
uint64 arithmetic and the empty flag is cleared. -/
def writePre (st : LogManagerState) (entries : List Entry) : LogManagerState :=
  match entries with
  | [] => st
  | e0 :: _ =>
    if st.empty then
      { st with lastIndex := (e0.index + (2 ^ 64 - 1)) % 2 ^ 64, empty := false }
    else st

/-- Write (lines 115-127): success without any state change on an empty
batch; otherwise the first-batch adjustment followed by the segment-write
loop, with fuel entries.length (sufficient whenever every Append consumes at
least one entry). -/
def Write (appendFn : List Entry → Nat) (st : LogManagerState)
    (entries : List Entry) (hs : Option HardState) :
    Outcome (LogManagerState × List Chunk) :=
  if entries.isEmpty then Outcome.ok (st, [])
  else doWriteGo appendFn entries.length (writePre st entries) entries hs

/-- Close (lines 168-173): finalize the open writer if any (FATAL on a Finish
failure, via finishCurrentWriter), then report OK. -/
def Close (st : LogManagerState) : Outcome LogManagerState :=
  match st.current with
  | some w => finishCurrentWriter st w
  | none => Outcome.ok st

/-- Sync (lines 161-166): delegates to the open writer if any.  The LogWriter
Sync is not under src/ and is modelled as succeeding without a state change. -/
def Sync (st : LogManagerState) : Outcome LogManagerState :=
  Outcome.ok st

/-- GC (lines 175-177): the reference behavior deletes nothing. -/
def GC (st : LogManagerState) : Outcome LogManagerState :=
  Outcome.ok st

/-- A segment-write loop that is entered with the hard state already cleared
never passes a hard state to any Append call. -/
theorem doWriteGo_none_all_none (appendFn : List Entry → Nat) :
    ∀ (fuel : Nat) (st : LogManagerState) (entries : List Entry)
      (st2 : LogManagerState) (tr : List Chunk),
      doWriteGo appendFn fuel st entries none = Outcome.ok (st2, tr) →
      tr.all (fun c => c.2.isNone) = true := by
  intro fuel
  induction fuel with
  | zero =>
    intro st entries st2 tr h
    exact absurd h (by simp [doWriteGo])
  | succ fuel ih =>
    intro st entries st2 tr h
    simp only [doWriteGo] at h
    split at h
    · simp only [Outcome.ok.injEq, Prod.mk.injEq] at h
      rcases h with ⟨rfl, rfl⟩
      simp
    · split at h
      · exact absurd h (by simp)
      · split at h
        · exact absurd h (by simp)
        · exact absurd h (by simp)
        · rename_i st3 heq
          cases hrec : doWriteGo appendFn fuel st3
              (entries.drop (appendFn entries)) none with
          | ok p =>
            obtain ⟨st4, tr4⟩ := p
            rw [hrec] at h
            simp only [consTrace, Outcome.ok.injEq, Prod.mk.injEq] at h
            rcases h with ⟨rfl, rfl⟩
            simpa using ih st3 (entries.drop (appendFn entries)) st4 tr4 hrec
          | err k => rw [hrec] at h; exact absurd h (by simp [consTrace])
          | fatal k => rw [hrec] at h; exact absurd h (by simp [consTrace])

/-- In any successful segment-write loop run, every Append call after the
first one is passed a cleared hard state. -/
theorem doWriteGo_tail_none (appendFn : List Entry → Nat) (fuel : Nat)
    (st : LogManagerState) (entries : List Entry) (hs : Option HardState)
    (st2 : LogManagerState) (tr : List Chunk)
    (h : doWriteGo appendFn fuel st entries hs = Outcome.ok (st2, tr)) :
    tr.tail.all (fun c => c.2.isNone) = true := by
  cases fuel with
  | zero => exact absurd h (by simp [doWriteGo])
  | succ fuel =>
    simp only [doWriteGo] at h
    split at h
    · simp only [Outcome.ok.injEq, Prod.mk.injEq] at h
      rcases h with ⟨rfl, rfl⟩
      simp
    · split at h
      · exact absurd h (by simp)
      · split at h
        · exact absurd h (by simp)
        · exact absurd h (by simp)
        · rename_i st3 heq
          cases hrec : doWriteGo appendFn fuel st3
              (entries.drop (appendFn entries)) none with
          | ok p =>
            obtain ⟨st4, tr4⟩ := p
            rw [hrec] at h
            simp only [consTrace, Outcome.ok.injEq, Prod.mk.injEq] at h
            rcases h with ⟨rfl, rfl⟩
            simpa using doWriteGo_none_all_none appendFn fuel st3
              (entries.drop (appendFn entries)) st4 tr4 hrec
          | err k => rw [hrec] at h; exact absurd h (by simp [consTrace])
          | fatal k => rw [hrec] at h; exact absurd h (by simp [consTrace])

/-- Claim C7: when the open writer consumes a strict non-empty chunk of the
remaining batch, the loop updates lastIndex to the index of the last entry
the writer accepted, appends the SegmentMetaData of the finished writer to
files, clears the writer so a fresh one is opened, and continues from the
first unconsumed entry with the hard state cleared; moreover in any
successful run the hard state can only accompany the first physical write of
the batch. -/
theorem doWrite_rollover_step (appendFn : List Entry → Nat) (fuel : Nat)
    (st : LogManagerState) (entries : List Entry) (hs : Option HardState)
    (w : Writer) (lastE : Entry)
    (hw : st.current = some w) (hfe : w.finishErr = none)
    (_h1 : 1 ≤ appendFn entries) (h2 : appendFn entries < entries.length)
    (hlast : (entries.take (appendFn entries)).getLast? = some lastE) :
    doWriteGo appendFn (fuel + 1) st entries hs =
      consTrace (entries.take (appendFn entries), hs)
        (doWriteGo appendFn fuel
          { st with lastIndex := lastE.index, files := st.files ++ [w.meta],
                    current := none }
          (entries.drop (appendFn entries)) none) ∧
    (∀ st2 tr, doWriteGo appendFn (fuel + 1) st entries hs = Outcome.ok (st2, tr) →
      tr.tail.all (fun c => c.2.isNone) = true) := by
  constructor
  · have hnle : ¬ entries.length ≤ appendFn entries := not_le.mpr h2
    simp only [doWriteGo, hw, hlast, finishCurrentWriter, hfe, if_neg hnle]
  · intro st2 tr h
    exact doWriteGo_tail_none appendFn (fuel + 1) st entries hs st2 tr h

/-- Witness for C7 at a concrete input: a writer holding segment (1,1)
consumes one of two entries; the loop records lastIndex 1, appends the
segment metadata, and continues with the hard state cleared.  The trace of
the completed run passes the hard state only to the first Append call. -/
theorem doWrite_rollover_step_check :
    doWriteGo (fun _ => 1) 2 ⟨[], some ⟨⟨1, 1⟩, none⟩, 0, false⟩
        [⟨1, 1, []⟩, ⟨2, 1, []⟩] (some ⟨1, 0, 0⟩) =
      consTrace ([⟨1, 1, []⟩], some ⟨1, 0, 0⟩)
        (doWriteGo (fun _ => 1) 1 ⟨[⟨1, 1⟩], none, 1, false⟩ [⟨2, 1, []⟩] none) ∧
    ([([⟨1, 1, []⟩], some ⟨1, 0, 0⟩), ([⟨2, 1, []⟩], none)] : List Chunk).tail.all
        (fun c => c.2.isNone) = true :=
  ⟨(doWrite_rollover_step (fun _ => 1) 1 ⟨[], some ⟨⟨1, 1⟩, none⟩, 0, false⟩
      [⟨1, 1, []⟩, ⟨2, 1, []⟩] (some ⟨1, 0, 0⟩) ⟨⟨1, 1⟩, none⟩ ⟨1, 1, []⟩
      rfl rfl (by decide) (by decide) (by decide)).1,
   (doWrite_rollover_step (fun _ => 1) 1 ⟨[], some ⟨⟨1, 1⟩, none⟩, 0, false⟩
      [⟨1, 1, []⟩, ⟨2, 1, []⟩] (some ⟨1, 0, 0⟩) ⟨⟨1, 1⟩, none⟩ ⟨1, 1, []⟩
      rfl rfl (by decide) (by decide) (by decide)).2
     ⟨[⟨1, 1⟩], some ⟨⟨2, 2⟩, none⟩, 1, false⟩
     [([⟨1, 1, []⟩], some ⟨1, 0, 0⟩), ([⟨2, 1, []⟩], none)] (by decide)⟩

/-- Claim C9: Write on a non-empty batch while the manager is flagged empty
first sets lastIndex to entries[0].index - 1 and clears the empty flag, then
delegates to the segment-write loop; Write on an empty batch succeeds without
changing any state. -/
theorem write_first_batch (appendFn : List Entry → Nat) (st : LogManagerState)
    (e0 : Entry) (rest : List Entry) (hs : Option HardState)
    (hempty : st.empty = true) (hidx : 1 ≤ e0.index) (hlt : e0.index < 2 ^ 64) :
    Write appendFn st [] hs = Outcome.ok (st, []) ∧
    writePre st (e0 :: rest) = { st with lastIndex := e0.index - 1, empty := false } ∧
    Write appendFn st (e0 :: rest) hs =
      doWriteGo appendFn (e0 :: rest).length
        { st with lastIndex := e0.index - 1, empty := false } (e0 :: rest) hs := by
  have h64 : (2 : Nat) ^ 64 = 18446744073709551616 := by norm_num
  have hmod : (e0.index + (2 ^ 64 - 1)) % 2 ^ 64 = e0.index - 1 := by
    rw [h64] at hlt ⊢
    omega
  have hpre : writePre st (e0 :: rest) =
      { st with lastIndex := e0.index - 1, empty := false } := by
    simp only [writePre, hempty, if_true, hmod]
  refine ⟨rfl, hpre, ?_⟩
  simp only [Write, List.isEmpty_cons, hpre]
  rfl

/-- Witness for C9 at a concrete input: an empty-flagged manager receiving a
first batch starting at index 3 moves to lastIndex 2 before the loop, and an
empty batch is a state-preserving no-op. -/
theorem write_first_batch_check :
    Write (fun l => l.length) ⟨[], none, 0, true⟩ [] none =
      Outcome.ok (⟨[], none, 0, true⟩, []) ∧
    writePre ⟨[], none, 0, true⟩ [⟨3, 1, []⟩] = ⟨[], none, 2, false⟩ ∧
    Write (fun l => l.length) ⟨[], none, 0, true⟩ [⟨3, 1, []⟩] none =
      doWriteGo (fun l => l.length) 1 ⟨[], none, 2, false⟩ [⟨3, 1, []⟩] none :=
  write_first_batch (fun l => l.length) ⟨[], none, 0, true⟩ ⟨3, 1, []⟩ [] none
    rfl (by norm_num) (by norm_num)

/-- Claim C1 (evaluation at the failing input): writing the single entry of
index 1 to a freshly recovered empty manager succeeds and the trace shows the
entry was handed to the writer, yet lastIndex stays 0 instead of becoming 1;
doWrite updates lastIndex_ only on rollover and the completion branch leaves
it untouched. -/
theorem write_does_not_update_lastIndex :
    Write (fun l => l.length) ⟨[], none, 0, false⟩ [⟨1, 1, []⟩] none =
      Outcome.ok (⟨[], some ⟨⟨1, 1⟩, none⟩, 0, false⟩, [([⟨1, 1, []⟩], none)]) := by
  rfl

/-- Claim C6 (counterexample): with an open writer whose Finish fails with
IOError, Close terminates the process through FATAL_NOT_OK instead of
surfacing the error as a returned status. -/
theorem close_finish_ioerror_not_surfaced :
    Close ⟨[], some ⟨⟨1, 1⟩, some ErrorKind.IOError⟩, 0, false⟩ =
        Outcome.fatal ErrorKind.IOError ∧
      Close ⟨[], some ⟨⟨1, 1⟩, some ErrorKind.IOError⟩, 0, false⟩ ≠
        Outcome.err ErrorKind.IOError := by
  exact ⟨rfl, by decide⟩

/-- Claim C6 (amended): a LogWriter::Finish failure during Close or during a
rollover of the segment-write loop is treated as fatal (FATAL_NOT_OK) and
terminates the process; it is not surfaced to the caller as a returned error
status. -/
theorem finish_error_is_fatal (st : LogManagerState) (w : Writer) (k : ErrorKind)
    (hw : st.current = some w) (hk : w.finishErr = some k) :
    Close st = Outcome.fatal k ∧
    ∀ (appendFn : List Entry → Nat) (fuel : Nat) (entries : List Entry)
      (hs : Option HardState) (lastE : Entry),
      (entries.take (appendFn entries)).getLast? = some lastE →
      appendFn entries < entries.length →
      doWriteGo appendFn (fuel + 1) st entries hs = Outcome.fatal k := by
  constructor
  · simp only [Close, hw, finishCurrentWriter, hk]
  · intro appendFn fuel entries hs lastE hlast h2
    have hnle : ¬ entries.length ≤ appendFn entries := not_le.mpr h2
    simp only [doWriteGo, hw, hlast, finishCurrentWriter, hk, if_neg hnle]

/-- Witness for the amended C6 at a concrete input: a writer for segment
(3,5) whose Finish fails with IOError makes both Close and a rollover of the
write loop fatal. -/
theorem finish_error_is_fatal_check :
    Close ⟨[], some ⟨⟨3, 5⟩, some ErrorKind.IOError⟩, 4, false⟩ =
        Outcome.fatal ErrorKind.IOError ∧
      doWriteGo (fun _ => 1) 1 ⟨[], some ⟨⟨3, 5⟩, some ErrorKind.IOError⟩, 4, false⟩
          [⟨5, 1, []⟩, ⟨6, 1, []⟩] none = Outcome.fatal ErrorKind.IOError :=
  ⟨(finish_error_is_fatal ⟨[], some ⟨⟨3, 5⟩, some ErrorKind.IOError⟩, 4, false⟩
      ⟨⟨3, 5⟩, some ErrorKind.IOError⟩ ErrorKind.IOError rfl rfl).1,
   (finish_error_is_fatal ⟨[], some ⟨⟨3, 5⟩, some ErrorKind.IOError⟩, 4, false⟩
      ⟨⟨3, 5⟩, some ErrorKind.IOError⟩ ErrorKind.IOError rfl rfl).2
     (fun _ => 1) 0 [⟨5, 1, []⟩, ⟨6, 1, []⟩] none ⟨5, 1, []⟩ (by decide) (by decide)⟩

/-- A decimal digit character: the character of code 48 + d. -/
def digitChar (d : Nat) : Char := Char.ofNat (48 + d)

/-- Decimal digit characters of n, most significant first, by repeated
division; the fuel argument bounds the recursion and any value of at least n
is sufficient. -/
def natToCharsAux : Nat → Nat → List Char
  | 0, _ => []
  | fuel + 1, n => if n = 0 then [] else natToCharsAux fuel (n / 10) ++ [digitChar (n % 10)]

/-- Decimal representation of n as characters, most significant first. -/
def natToChars (n : Nat) : List Char :=
  if n = 0 then ['0'] else natToCharsAux n n

/-- Modelled from the spec: SegmentFileName (used by Recover at line 106 but
defined outside src/) formats a segment file name as the decimal segment id,
a dash, the decimal start index and the literal suffix ".wal" (spec section
6). -/
def SegmentFileName (segId segStart : Nat) : List Char :=
  natToChars segId ++ '-' :: (natToChars segStart ++ ['.', 'w', 'a', 'l'])

/-- isWal (log_manager.cc lines 23-27): the name is longer than four
characters and its last four characters are ".wal". -/
def isWal (fname : List Char) : Bool :=
  decide (4 < fname.length) && decide (fname.drop (fname.length - 4) = ['.', 'w', 'a', 'l'])

/-- Value of a most-significant-first digit-character run, as accumulated by
a left-to-right decimal scan. -/
def digitsVal (ds : List Char) : Nat :=
  ds.foldl (fun a c => a * 10 + (c.toNat - 48)) 0

/-- parseWalName (lines 29-31): sscanf with format %zu-%zu.wal.  A maximal
run of digits gives the first field; after a literal dash a second digit run
gives the second field.  When a conversion fails sscanf leaves the output
variable unassigned and the source then reads an uninitialized value; the
model uses 0 there (no claim depends on that case). -/
def parseWalName (fname : List Char) : Nat × Nat :=
  match fname.dropWhile Char.isDigit with
  | c :: r2 =>
    if c = '-' then
      (digitsVal (fname.takeWhile Char.isDigit), digitsVal (r2.takeWhile Char.isDigit))
    else (digitsVal (fname.takeWhile Char.isDigit), 0)
  | [] => (digitsVal (fname.takeWhile Char.isDigit), 0)

/-- Sorted-map insertion, the std::map assignment wals[segId] = segStart at
line 88: keeps the association list sorted by key and overwrites the value of
an existing key. -/
def insertWal : List (Nat × Nat) → Nat → Nat → List (Nat × Nat)
  | [], k, v => [(k, v)]
  | (k0, v0) :: rest, k, v =>
    if k < k0 then (k, v) :: (k0, v0) :: rest
    else if k = k0 then (k, v) :: rest
    else (k0, v0) :: insertWal rest k v

/-- The wals map built by Recover at lines 83-90: every listing entry with
the .wal suffix is parsed and assigned into the id-keyed map, later entries
overwriting earlier ones. -/
def buildWals (listing : List (List Char)) : List (Nat × Nat) :=
  listing.foldl
    (fun m f => if isWal f then insertWal m (parseWalName f).1 (parseWalName f).2 else m) []

/-- Start index of the last wal file of segment id k in listing order,
carried over an accumulator (specification-side description of the
last-one-wins overwrite). -/
def lastWalStartAux (k : Nat) (listing : List (List Char)) (a : Option Nat) : Option Nat :=
  listing.foldl
    (fun acc f =>
      if isWal f = true ∧ (parseWalName f).1 = k then some (parseWalName f).2 else acc) a

/-- Start index of the last wal file of segment id k in listing order. -/
def lastWalStart (listing : List (List Char)) (k : Nat) : Option Nat :=
  lastWalStartAux k listing none

/-- Modelled from the spec: ReadSegmentIntoMemoryStorage (the readable log
segment files are not under src/) merges every decoded entry of one segment
into the in-memory cache through AppendToMemStore (spec sections 4.1 and
4.4), stopping at the first error. -/
def mergeEntries : List Entry → List Entry → Except ErrorKind (List Entry)
  | [], ms => Except.ok ms
  | e :: rest, ms =>
    match AppendToMemStore e ms with
    | (Status.OK, ms2) => mergeEntries rest ms2
    | (Status.Err k, _) => Except.error k

/-- The per-segment loop of Recover (lines 105-111): read each segment of the
wals map in ascending id order into the cache and collect its metadata.
Reading one segment is abstracted by readSeg, which returns the decoded
entries of segment (segId, segStart) or an error. -/
def recoverGo (readSeg : Nat → Nat → Except ErrorKind (List Entry)) :
    List (Nat × Nat) → List SegmentMetaData → List Entry →
      Outcome (LogManagerState × Option (List Entry))
  | [], files, ms => Outcome.ok (⟨files, none, 0, false⟩, some ms)
  | (segId, segStart) :: rest, files, ms =>
    match readSeg segId segStart with
    | Except.error k => Outcome.err k
    | Except.ok es =>
      match mergeEntries es ms with
      | Except.error k => Outcome.err k
      | Except.ok ms2 => recoverGo readSeg rest (files ++ [⟨segId, segStart⟩]) ms2

/-- Recover (lines 73-113).  Directory creation and listing are abstracted
into the input listing.  The manager is constructed with lastIndex_(0) and
empty_(false) (lines 66-67); when the wals map is empty, Recover returns at
line 95 with the memstore untouched; otherwise line 97 assigns empty_ = false
again, LOG_ASSERT(*memstore == nullptr) at line 99 is modelled as a fatal
outcome, a fresh memstore is allocated, and the segments are replayed.
Recover never assigns lastIndex_. -/
def Recover (readSeg : Nat → Nat → Except ErrorKind (List Entry))
    (listing : List (List Char)) (memstore : Option (List Entry)) :
    Outcome (LogManagerState × Option (List Entry)) :=
  let wals := buildWals listing
  if wals.isEmpty then Outcome.ok (⟨[], none, 0, false⟩, memstore)
  else
    match memstore with
    | some _ => Outcome.fatal ErrorKind.InvariantViolation
    | none => recoverGo readSeg wals [] []

/-- Characters produced by digitChar for a decimal digit are digits. -/
theorem digitChar_isDigit (d : Nat) (h : d < 10) : (digitChar d).isDigit = true := by
  interval_cases d <;> decide

/-- Code of the character produced by digitChar for a decimal digit. -/
theorem digitChar_toNat (d : Nat) (h : d < 10) : (digitChar d).toNat = 48 + d := by
  interval_cases d <;> decide

/-- Every character produced by natToCharsAux is a digit. -/
theorem natToCharsAux_digits (fuel : Nat) :
    ∀ n, ∀ c ∈ natToCharsAux fuel n, c.isDigit = true := by
  induction fuel with
  | zero =>
    intro n c hc
    simp [natToCharsAux] at hc
  | succ fuel ih =>
    intro n c hc
    by_cases hn : n = 0
    · simp [natToCharsAux, hn] at hc
    · simp only [natToCharsAux, if_neg hn, List.mem_append, List.mem_singleton] at hc
      rcases hc with hc | rfl
      · exact ih (n / 10) c hc
      · exact digitChar_isDigit (n % 10) (Nat.mod_lt n (by norm_num))

/-- Every character of the decimal representation is a digit. -/
theorem natToChars_digits (n : Nat) : ∀ c ∈ natToChars n, c.isDigit = true := by
  by_cases hn : n = 0
  · intro c hc
    simp [natToChars, hn] at hc
    subst hc
    decide
  · simp only [natToChars, if_neg hn]
    exact natToCharsAux_digits n n

/-- The decimal scan across an appended final character multiplies the
accumulated value by ten and adds the digit value of that character. -/
theorem digitsVal_append_one (l : List Char) (c : Char) :
    digitsVal (l ++ [c]) = digitsVal l * 10 + (c.toNat - 48) := by
  simp [digitsVal, List.foldl_append]

/-- The decimal scan inverts natToCharsAux whenever the fuel suffices. -/
theorem digitsVal_natToCharsAux (fuel : Nat) :
    ∀ n, n ≤ fuel → digitsVal (natToCharsAux fuel n) = n := by
  induction fuel with
  | zero =>
    intro n hn
    interval_cases n
    rfl
  | succ fuel ih =>
    intro n hn
    by_cases hzero : n = 0
    · simp [natToCharsAux, hzero, digitsVal]
    · have hdiv : n / 10 ≤ fuel := by omega
      simp only [natToCharsAux, if_neg hzero]
      rw [digitsVal_append_one, ih (n / 10) hdiv,
        digitChar_toNat (n % 10) (Nat.mod_lt n (by norm_num))]
      omega

/-- The decimal scan inverts the decimal representation. -/
theorem digitsVal_natToChars (n : Nat) : digitsVal (natToChars n) = n := by
  by_cases hn : n = 0
  · subst hn; rfl
  · simp only [natToChars, if_neg hn]
    exact digitsVal_natToCharsAux n n le_rfl

/-- takeWhile across an appended block whose front satisfies the predicate
everywhere keeps the whole front. -/
theorem takeWhile_append_all {α : Type} (p : α → Bool) (l1 l2 : List α)
    (h : ∀ x ∈ l1, p x = true) : (l1 ++ l2).takeWhile p = l1 ++ l2.takeWhile p := by
  induction l1 with
  | nil => simp
  | cons a tl ih =>
    have ha : p a = true := h a (by simp)
    simp [List.takeWhile_cons, ha, ih (fun x hx => h x (by simp [hx]))]

/-- dropWhile across an appended block whose front satisfies the predicate
everywhere drops the whole front. -/
theorem dropWhile_append_all {α : Type} (p : α → Bool) (l1 l2 : List α)
    (h : ∀ x ∈ l1, p x = true) : (l1 ++ l2).dropWhile p = l2.dropWhile p := by
  induction l1 with
  | nil => simp
  | cons a tl ih =>
    have ha : p a = true := h a (by simp)
    simp [List.dropWhile_cons, ha, ih (fun x hx => h x (by simp [hx]))]

/-- Claim C8: for unsigned 64-bit pairs (id, start), parsing the segment file
name formatted from (id, start) recovers exactly (id, start). -/
theorem parse_format_roundtrip (segId segStart : Nat)
    (_h1 : segId < 2 ^ 64) (_h2 : segStart < 2 ^ 64) :
    parseWalName (SegmentFileName segId segStart) = (segId, segStart) := by
  have hdrop : (SegmentFileName segId segStart).dropWhile Char.isDigit
      = '-' :: (natToChars segStart ++ ['.', 'w', 'a', 'l']) := by
    unfold SegmentFileName
    rw [dropWhile_append_all Char.isDigit _ _ (natToChars_digits segId)]
    rw [List.dropWhile_cons, if_neg (by decide)]
  have htake1 : (SegmentFileName segId segStart).takeWhile Char.isDigit
      = natToChars segId := by
    unfold SegmentFileName
    rw [takeWhile_append_all Char.isDigit _ _ (natToChars_digits segId)]
    rw [List.takeWhile_cons, if_neg (by decide), List.append_nil]
  have htake2 : (natToChars segStart ++ ['.', 'w', 'a', 'l']).takeWhile Char.isDigit
      = natToChars segStart := by
    rw [takeWhile_append_all Char.isDigit _ _ (natToChars_digits segStart)]
    rw [List.takeWhile_cons, if_neg (by decide), List.append_nil]
  unfold parseWalName
  rw [hdrop]
  simp only [htake1, htake2, if_pos rfl, if_true, digitsVal_natToChars]

/-- Witness for C8 at a concrete input: the pair (5, 7) survives the
format-then-parse round trip. -/
theorem parse_format_roundtrip_check :
    (5 : Nat) < 2 ^ 64 ∧ (7 : Nat) < 2 ^ 64 ∧
      parseWalName (SegmentFileName 5 7) = (5, 7) :=
  ⟨by norm_num, by norm_num, parse_format_roundtrip 5 7 (by norm_num) (by norm_num)⟩

/-- Association-list lookup by key, the observation of the wals map. -/
def lookupWal (j : Nat) : List (Nat × Nat) → Option Nat
  | [] => none
  | (k, v) :: rest => if j = k then some v else lookupWal j rest

/-- Every element of an insertWal result was present before or carries the
inserted key. -/
theorem insertWal_keys (m : List (Nat × Nat)) (k v : Nat) (x : Nat × Nat)
    (hx : x ∈ insertWal m k v) : x ∈ m ∨ x.1 = k := by
  induction m with
  | nil =>
    simp only [insertWal, List.mem_singleton] at hx
    subst hx
    right
    rfl
  | cons p rest ih =>
    obtain ⟨k0, v0⟩ := p
    by_cases h1 : k < k0
    · simp only [insertWal, if_pos h1, List.mem_cons] at hx
      rcases hx with rfl | hx2
      · right; rfl
      · left; simpa using hx2
    · by_cases h2 : k = k0
      · simp only [insertWal, if_neg h1, if_pos h2, List.mem_cons] at hx
        rcases hx with rfl | hx2
        · right; rfl
        · left; simp [hx2]
      · simp only [insertWal, if_neg h1, if_neg h2, List.mem_cons] at hx
        rcases hx with rfl | hx2
        · left; simp
        · rcases ih hx2 with hx3 | hx3
          · left; simp [hx3]
          · right; exact hx3

/-- insertWal keeps the map strictly sorted by key. -/
theorem insertWal_pairwise (m : List (Nat × Nat)) (k v : Nat)
    (hm : m.Pairwise (fun a b => a.1 < b.1)) :
    (insertWal m k v).Pairwise (fun a b => a.1 < b.1) := by
  induction m with
  | nil => simp [insertWal]
  | cons p rest ih =>
    obtain ⟨k0, v0⟩ := p
    have hhead : ∀ b ∈ rest, k0 < b.1 := (List.pairwise_cons.mp hm).1
    have hrest := (List.pairwise_cons.mp hm).2
    by_cases h1 : k < k0
    · simp only [insertWal, if_pos h1]
      refine List.pairwise_cons.mpr ⟨?_, hm⟩
      intro b hb
      rcases (by simpa using hb : b = (k0, v0) ∨ b ∈ rest) with rfl | hb2
      · exact h1
      · exact lt_trans h1 (hhead b hb2)
    · by_cases h2 : k = k0
      · subst h2
        simp only [insertWal, if_neg h1, if_pos rfl]
        exact List.pairwise_cons.mpr ⟨hhead, hrest⟩
      · have h3 : k0 < k := by omega
        simp only [insertWal, if_neg h1, if_neg h2]
        refine List.pairwise_cons.mpr ⟨?_, ih hrest⟩
        intro b hb
        rcases insertWal_keys rest k v b hb with hb2 | hb2
        · exact hhead b hb2
        · rw [hb2]; exact h3

/-- Lookup after insertWal: the inserted key maps to the inserted value,
every other key is unaffected. -/
theorem insertWal_lookupWal (m : List (Nat × Nat)) (k v j : Nat) :
    lookupWal j (insertWal m k v) = if j = k then some v else lookupWal j m := by
  induction m with
  | nil => rfl
  | cons p rest ih =>
    obtain ⟨k0, v0⟩ := p
    by_cases h1 : k < k0
    · simp only [insertWal, if_pos h1]
      rfl
    · by_cases h2 : k = k0
      · subst h2
        simp only [insertWal, if_neg h1, if_pos rfl]
        by_cases hj : j = k <;> simp [lookupWal, hj]
      · simp only [insertWal, if_neg h1, if_neg h2]
        by_cases hj : j = k0
        · subst hj
          have hj2 : ¬ j = k := fun h => h2 h.symm
          simp [lookupWal, hj2]
        · simp [lookupWal, hj, ih]

/-- Unfolding lemma for the listing scan of lastWalStartAux. -/
theorem lastWalStartAux_cons (k : Nat) (f : List Char) (rest : List (List Char))
    (a : Option Nat) :
    lastWalStartAux k (f :: rest) a =
      lastWalStartAux k rest
        (if isWal f = true ∧ (parseWalName f).1 = k then some (parseWalName f).2 else a) :=
  rfl

/-- Lookup in the wals map accumulated over a listing equals the
last-one-wins scan of the listing, for any starting map. -/
theorem buildWals_fold_lookup (k : Nat) (listing : List (List Char)) :
    ∀ m : List (Nat × Nat),
      lookupWal k (listing.foldl
        (fun m f =>
          if isWal f then insertWal m (parseWalName f).1 (parseWalName f).2 else m) m) =
        lastWalStartAux k listing (lookupWal k m) := by
  induction listing with
  | nil => intro m; rfl
  | cons f rest ih =>
    intro m
    rw [List.foldl_cons, lastWalStartAux_cons]
    by_cases hf : isWal f = true
    · rw [if_pos hf, ih]
      congr 1
      rcases Decidable.em ((parseWalName f).1 = k) with hk | hk
      · simp [insertWal_lookupWal, hk, hf]
      · have hk2 : ¬ k = (parseWalName f).1 := fun h => hk h.symm
        simp [insertWal_lookupWal, hk, hk2, hf]
    · rw [if_neg hf, ih]
      congr 1
      simp [hf]

/-- The wals map accumulated over a listing stays strictly sorted by key,
for any sorted starting map. -/
theorem buildWals_fold_pairwise (listing : List (List Char)) :
    ∀ m : List (Nat × Nat), m.Pairwise (fun a b => a.1 < b.1) →
      (listing.foldl
        (fun m f =>
          if isWal f then insertWal m (parseWalName f).1 (parseWalName f).2 else m) m).Pairwise
        (fun a b => a.1 < b.1) := by
  induction listing with
  | nil => intro m hm; exact hm
  | cons f rest ih =>
    intro m hm
    rw [List.foldl_cons]
    by_cases hf : isWal f = true
    · rw [if_pos hf]
      exact ih _ (insertWal_pairwise _ _ _ hm)
    · rw [if_neg hf]
      exact ih _ hm

/-- The per-segment recovery loop under successful empty reads: one metadata
record per wals entry, in order, and an unchanged cache. -/
theorem recoverGo_ok_reads (wals : List (Nat × Nat)) :
    ∀ (files : List SegmentMetaData) (ms : List Entry),
      recoverGo (fun _ _ => Except.ok []) wals files ms =
        Outcome.ok
          (⟨files ++ wals.map (fun p => (⟨p.1, p.2⟩ : SegmentMetaData)), none, 0, false⟩,
            some ms) := by
  induction wals with
  | nil => intro files ms; simp [recoverGo]
  | cons p rest ih =>
    intro files ms
    obtain ⟨segId, segStart⟩ := p
    simp only [recoverGo, mergeEntries, ih, List.map_cons]
    simp

/-- Claim C10: duplicate segment ids in the directory listing do not make
Recover fail; the wals map keeps exactly one segment per distinct id (its
keys are strictly sorted), each id maps to the start index of the file
encountered last in listing order, Recover replays exactly the map, and on a
listing holding 1-5.wal and then 1-9.wal the single recovered segment is
(1, 9). -/
theorem recover_duplicate_segids (listing : List (List Char)) :
    (buildWals listing).Pairwise (fun a b => a.1 < b.1) ∧
    (∀ k, lookupWal k (buildWals listing) = lastWalStart listing k) ∧
    Recover (fun _ _ => Except.ok []) listing none =
      (if (buildWals listing).isEmpty then
        Outcome.ok (⟨[], none, 0, false⟩, none)
      else
        Outcome.ok
          (⟨(buildWals listing).map (fun p => ⟨p.1, p.2⟩), none, 0, false⟩, some [])) ∧
    Recover (fun _ _ => Except.ok [])
        [['1', '-', '5', '.', 'w', 'a', 'l'], ['1', '-', '9', '.', 'w', 'a', 'l']] none =
      Outcome.ok (⟨[⟨1, 9⟩], none, 0, false⟩, some []) := by
  refine ⟨buildWals_fold_pairwise listing [] (by simp), ?_, ?_, by decide⟩
  · intro k
    exact buildWals_fold_lookup k listing []
  · unfold Recover
    by_cases hem : (buildWals listing).isEmpty = true
    · simp only [buildWals] at hem ⊢
      simp [hem]
    · simp only [buildWals] at hem ⊢
      simp [hem, recoverGo_ok_reads]

/-- Claim C2 (evaluation at the failing input): Recover over a directory with
no segment files succeeds with no files, no cache mutation, and a manager
whose empty flag is false, not true: the constructor initializes
empty_(false) and the early return at line 95 never sets it. -/
theorem recover_empty_dir (readSeg : Nat → Nat → Except ErrorKind (List Entry))
    (ms : Option (List Entry)) :
    Recover readSeg [] ms = Outcome.ok (⟨[], none, 0, false⟩, ms) ∧
    ((⟨[], none, 0, false⟩ : LogManagerState).empty = false) :=
  ⟨rfl, rfl⟩

/-- Claim C3 (evaluation at the failing input): recovering a directory with
one segment 1-1.wal that decodes to entries (1, term 1) and (2, term 1)
rebuilds the cache correctly but leaves lastIndex at 0 instead of N = 2:
Recover never assigns lastIndex_. -/
theorem recover_lastIndex_not_tracked :
    Recover (fun _ _ => Except.ok [⟨1, 1, []⟩, ⟨2, 1, []⟩])
        [['1', '-', '1', '.', 'w', 'a', 'l']] none =
      Outcome.ok (⟨[⟨1, 1⟩], none, 0, false⟩, some [⟨1, 1, []⟩, ⟨2, 1, []⟩]) := by
  rfl

end Wal
